import Mathlib

/-!
Verification development for the decision/validation core of an automated
trading agent (package `ai_trading_swarm_v25`).

The Python source is shallowly embedded over the rationals: every float of
the source is modelled as a `ℚ` value, `dict.get(k, d)` lookups are
modelled as `Option` fields read with `getD`, and a Python function that
can raise is modelled with `Option`/`Except`.  Note that in Lean `x / 0 = 0`
on `ℚ`; wherever the Python code could divide by zero (and hence raise)
the theorems below carry hypotheses that keep the embedding inside the
domain where both agree.

Embedded modules:
* `agents/arbitration_engine.py`  (weighted consensus)
* `analysis/regime_engine.py`     (market regime classification)
* `trading/kelly_sizer.py`        (Kelly position sizing)
* `strategies/portfolio.py`       (portfolio allocation)
* `lab/selection.py`              (approved strategy selection)
* `lab/orchestrator.py`           (lab gate status state machine)
* `backtesting/engine.py`         (backtest simulator)
* `backtesting/metrics.py`        (performance metrics)
-/

namespace Swarm

/-! ### Consensus arbitration engine (`agents/arbitration_engine.py`) -/

/-- One advisor response consumed by
`AgentArbitrationEngine.calculate_weighted_consensus`: the fields
`agent_id`, `sentiment` and `confidence` read from the response dict. -/
structure AgentResponse where
  agent_id : String
  sentiment : ℚ
  confidence : ℚ
deriving DecidableEq, Repr

/-- Result dict of `calculate_weighted_consensus`.  The Python field
`dissent_score = float(np.std(sentiments))` is the square root of the
population variance of the sentiments; the structure stores that variance
(`dissent_variance`, a rational) and `dissent_score` below takes the real
square root.  The `weights` field models the Python dict
`{agent_id: weight}` as an association list in insertion order. -/
structure ConsensusOut where
  sentiment : ℚ
  confidence : ℚ
  dissent_variance : ℚ
  weights : List (String × ℚ)
deriving DecidableEq, Repr

/-- Python dict insertion: overwriting an existing key keeps its position,
a new key is appended. -/
def pyDictInsert (m : List (String × ℚ)) (k : String) (v : ℚ) : List (String × ℚ) :=
  if m.any (fun p => p.1 = k) then m.map (fun p => if p.1 = k then (k, v) else p)
  else m ++ [(k, v)]

/-- Python dict construction from a sequence of key/value pairs. -/
def pyDict (l : List (String × ℚ)) : List (String × ℚ) :=
  l.foldl (fun m p => pyDictInsert m p.1 p.2) []

/-- `AgentArbitrationEngine.calculate_weighted_consensus`.  `scores` models
`self.agent_scores.get(agent_id, 1.0)` as a total function (the tracked
per-agent base score, defaulting to 1.0). -/
def calculate_weighted_consensus (scores : String → ℚ) (responses : List AgentResponse) :
    ConsensusOut :=
  if responses.isEmpty then ⟨0, 0, 0, []⟩
  else
    let weights := responses.map (fun r => scores r.agent_id * r.confidence)
    let sentiments := responses.map (fun r => r.sentiment)
    let confidences := responses.map (fun r => r.confidence)
    let weights_arr := if weights.sum ≤ 0 then weights.map (fun _ => (1 : ℚ)) else weights
    let weights_norm := weights_arr.map (fun w => w / weights_arr.sum)
    let sentiment := ((weights_norm.zip sentiments).map (fun p => p.1 * p.2)).sum
    let confidence := ((weights_norm.zip confidences).map (fun p => p.1 * p.2)).sum
    let mean_s := sentiments.sum / (sentiments.length : ℚ)
    let variance := (sentiments.map (fun s => (s - mean_s) ^ 2)).sum / (sentiments.length : ℚ)
    let weight_map := pyDict ((responses.map (fun r => r.agent_id)).zip weights_norm)
    ⟨sentiment, confidence, variance, weight_map⟩

/-- The `dissent_score` field of the result:
`float(np.std(sentiments))`, i.e. the square root of the population
variance of the raw (unweighted) sentiments. -/
noncomputable def dissent_score (o : ConsensusOut) : ℝ :=
  Real.sqrt (o.dissent_variance : ℝ)

/-! ### Market regime classification (`analysis/regime_engine.py`) -/

/-- Feature snapshot consumed by `MarketRegimeEngine.classify`; each field
models the corresponding `f.get(key, default)` dict lookup. -/
structure FeatureSnapshot where
  realized_vol_24h : Option ℚ
  orderbook_imbalance : Option ℚ
  social_urgency : Option ℚ
deriving DecidableEq, Repr

/-- `MarketRegimeEngine.classify` (the `regime` value of the returned dict). -/
def classify (f : FeatureSnapshot) : String :=
  let vol := f.realized_vol_24h.getD (2/100)
  let obi := f.orderbook_imbalance.getD 0
  let social_urg := f.social_urgency.getD 0
  if vol > 5/100 ∧ social_urg > 1/2 then "panic"
  else if |obi| > 15/100 ∧ vol < 4/100 then "trend"
  else if vol < 15/1000 then "quiet"
  else "chop"

/-! ### Kelly position sizing (`trading/kelly_sizer.py`) -/

/-- Configuration of `KellyPositionSizer`:
`config["trading"]["risk_management"]` values `kelly_fraction` (default
0.25) and `max_position_size` (default 0.05). -/
structure SizerConfig where
  kelly_fraction : ℚ
  max_position : ℚ
deriving DecidableEq, Repr

/-- The `backtest_stats` dict.  Each field is `Option`-valued: `none`
models a missing key, whose lookup raises `KeyError` inside the `try`
block of `calculate_position_size`. -/
structure KellyStats where
  win_rate : Option ℚ
  avg_win : Option ℚ
  avg_loss : Option ℚ
deriving DecidableEq, Repr

/-- Payoff ratio `b = avg_win / avg_loss` (the caller has already taken
`abs` of `avg_loss`). -/
def kelly_b (avg_win avg_loss : ℚ) : ℚ := avg_win / avg_loss

/-- Kelly fraction `(p * b - q) / b` with `q = 1 - p`. -/
def kelly_raw (p b : ℚ) : ℚ := (p * b - (1 - p)) / b

/-- Body of the `try` block of
`KellyPositionSizer.calculate_position_size`: `error` models an exception
(missing stats key) escaping to the `except` handler. -/
def calc_try (cfg : SizerConfig) (confidence : ℚ) (stats : KellyStats) : Except Unit ℚ :=
  match stats.win_rate, stats.avg_win, stats.avg_loss with
  | some p, some aw, some al =>
    let avg_loss := |al|
    if avg_loss = 0 then Except.ok (cfg.max_position * (1/2))
    else
      let b := kelly_b aw avg_loss
      let kelly := kelly_raw p b
      let position_size := kelly * cfg.kelly_fraction * confidence
      Except.ok (min (max (position_size) 0) cfg.max_position)
  | _, _, _ => Except.error ()

/-- `KellyPositionSizer.calculate_position_size`.  `consensus` models
`consensus.get("confidence", 0.7)`; the `except` handler returns half the
configured maximum position size. -/
def calculate_position_size (cfg : SizerConfig) (consensus : Option ℚ) (stats : KellyStats) : ℚ :=
  match calc_try cfg (consensus.getD (7/10)) stats with
  | Except.ok v => v
  | Except.error _ => cfg.max_position * (1/2)

/-! ### Portfolio allocation (`strategies/portfolio.py`) -/

/-- `StrategyAllocation` dataclass. -/
structure StrategyAllocation where
  strategy_id : String
  weight : ℚ
deriving DecidableEq, Repr

/-- Per-index raw weight of `StrategyPortfolioPlanner.plan_portfolio`
before normalization: the dict `{sid: base_weight}` multiplied by 1.2/0.8
on the favored/unfavored half.  For distinct strategy ids the dict update
loop is exactly this positional computation. -/
def portfolio_raw_weight (n : ℕ) (base tilt : ℚ) (i : ℕ) : ℚ :=
  let mid := n / 2
  if 2 ≤ n ∧ 1/10 < |tilt| then
    if 0 < tilt then
      (if i < mid then base * (12/10) else base * (8/10))
    else
      (if mid ≤ i then base * (12/10) else base * (8/10))
  else base

/-- `StrategyPortfolioPlanner.plan_portfolio`.  Models the Python dict of
weights (keyed by strategy id, insertion order = list order) positionally;
this is faithful for pairwise-distinct strategy ids. -/
def plan_portfolio (approved_strategies : List String) (sentiment confidence : ℚ) :
    List StrategyAllocation :=
  if approved_strategies.isEmpty then []
  else
    let n := approved_strategies.length
    let base_weight : ℚ := 1 / (max n 1 : ℚ)
    let tilt := sentiment * confidence
    let raw := (List.range n).map (portfolio_raw_weight n base_weight tilt)
    let total := raw.sum
    let weights := if 0 < total then raw.map (fun w => w / total) else raw
    (approved_strategies.zip weights).map (fun p => ⟨p.1, p.2⟩)

/-! ### Approved strategy selection (`lab/selection.py`) -/

/-- The fields of a `get_strategies_summary()` row that
`get_approved_strategies_for_pair` reads. -/
structure StrategySummary where
  id : String
  pair : String
  timeframe : String
  status : String
deriving DecidableEq, Repr

/-- `get_approved_strategies_for_pair`: ids of the stored strategies
matching the pair and timeframe whose status is in the allowed set
{"approved", "experimental", "insufficient_data"}. -/
def get_approved_strategies_for_pair (items : List StrategySummary)
    (pair timeframe : String) : List String :=
  (items.filter (fun s =>
      s.pair = pair ∧ s.timeframe = timeframe ∧
      (s.status = "approved" ∨ s.status = "experimental" ∨ s.status = "insufficient_data"))).map
    (fun s => s.id)

/-! ### Lab gate (`lab/orchestrator.py`) -/

/-- Threshold configuration of `LabOrchestrator` (`config["lab"]`); the
trade/backtest counts pass through `int(...)`. -/
structure LabThresholds where
  min_backtests : ℤ
  min_trades : ℤ
  min_sharpe : ℚ
  max_drawdown : ℚ
  min_total_return : ℚ
  min_profit_factor : ℚ
deriving DecidableEq, Repr

/-- One row of `get_backtests_for_strategy` (newest first). -/
structure BacktestRow where
  total_return : ℚ
  max_drawdown : ℚ
  sharpe : ℚ
  win_rate : ℚ
  profit_factor : ℚ
  num_trades : ℤ
deriving DecidableEq, Repr

/-- Strategy status values produced by `LabOrchestrator._evaluate_single`. -/
inductive StrategyStatus where
  | insufficient_data
  | approved
  | rejected
  | experimental
deriving DecidableEq, Repr

/-- `LabOrchestrator._evaluate_single` as a function of the thresholds and
the accumulated backtest rows (newest first).  Returns `none` when the
Python code raises `IndexError` on `bt_rows[0]` (empty row list that
nevertheless passes the `min_backtests` check). -/
def evaluate_single (t : LabThresholds) (bt_rows : List BacktestRow) : Option StrategyStatus :=
  if (bt_rows.length : ℤ) < t.min_backtests then some StrategyStatus.insufficient_data
  else
    match bt_rows with
    | [] => none
    | latest :: _ =>
      if latest.num_trades < t.min_trades then some StrategyStatus.insufficient_data
      else if latest.total_return ≥ t.min_total_return ∧
              latest.max_drawdown ≥ -t.max_drawdown ∧
              latest.sharpe ≥ t.min_sharpe ∧
              latest.profit_factor ≥ t.min_profit_factor then
        some StrategyStatus.approved
      else if latest.total_return < 0 ∨ latest.profit_factor < 1 then
        some StrategyStatus.rejected
      else some StrategyStatus.experimental

/-! ### Backtest simulator (`backtesting/engine.py`) and metrics
(`backtesting/metrics.py`).

Price bars are `(timestamp, close)` pairs with natural-number timestamps;
the embedding models a DataFrame whose index has pairwise-distinct
timestamps (the standard shape of OHLC data, and the shape under which
`equity_curve.loc[ts] = v` writes exactly one cell). -/

/-- `SignalType` enum from `strategies/base.py`. -/
inductive SignalType where
  | ENTRY_LONG
  | EXIT_LONG
  | ENTRY_SHORT
  | EXIT_SHORT
deriving DecidableEq, Repr

/-- A strategy `Signal` (the fields the backtest engine reads). -/
structure Signal where
  timestamp : ℕ
  signal_type : SignalType
  size_fraction : ℚ
deriving DecidableEq, Repr

/-- `TradeRecord` dataclass; `forced` models the presence of the
`forced_exit` flag in `meta`. -/
structure TradeRecord where
  entry_time : ℕ
  entry_price : ℚ
  exit_time : ℕ
  exit_price : ℚ
  pnl : ℚ
  return_pct : ℚ
  forced : Bool
deriving DecidableEq, Repr

instance : Inhabited TradeRecord := ⟨⟨0, 0, 0, 0, 0, 0, false⟩⟩

/-- `BacktestMetrics` dataclass.  The `sharpe` field of the Python
dataclass is omitted from the executable structure: it is
`sqrt(252) * mean / (std + 1e-9)`, an irrational function of the per-bar
returns that no gated claim depends on (the lab gate reads `sharpe` from
stored backtest rows, not from this computation). -/
structure BacktestMetrics where
  total_return : ℚ
  max_drawdown : ℚ
  win_rate : ℚ
  profit_factor : ℚ
  num_trades : ℕ
deriving DecidableEq, Repr

/-- Running maximum with seed `m` (tail of `Series.cummax`). -/
def cummaxAux (m : ℚ) : List ℚ → List ℚ
  | [] => []
  | a :: l => max m a :: cummaxAux (max m a) l

/-- `equity_curve.cummax()`. -/
def cummax : List ℚ → List ℚ
  | [] => []
  | a :: l => a :: cummaxAux a l

/-- `series.min()` with the Python guard `if len(series) else 0.0`. -/
def listMin : List ℚ → ℚ
  | [] => 0
  | a :: l => l.foldl min a

/-- `compute_metrics` (minus the sharpe field, see `BacktestMetrics`).
Callers always pass a non-empty equity curve, so the `iloc[0]`/`iloc[-1]`
reads are modelled with `getD 0`. -/
def compute_metrics (equity_curve : List ℚ) (trade_returns : List ℚ) : BacktestMetrics :=
  let total_return := equity_curve.getLast?.getD 0 / equity_curve.head?.getD 0 - 1
  let drawdown := (equity_curve.zip (cummax equity_curve)).map (fun p => p.1 / p.2 - 1)
  let max_drawdown := listMin drawdown
  let wins := trade_returns.filter (fun r => 0 < r)
  let losses := trade_returns.filter (fun r => r ≤ 0)
  let num_trades := trade_returns.length
  let win_rate := if 0 < num_trades then (wins.length : ℚ) / (num_trades : ℚ) else 0
  let gross_profit := wins.sum
  let gross_loss := if losses.isEmpty then 0 else -losses.sum
  let profit_factor := if 0 < gross_loss then gross_profit / gross_loss else 0
  ⟨total_return, max_drawdown, win_rate, profit_factor, num_trades⟩

/-- `BacktestResult` (equity curve as the list of per-bar values in bar
order, the trade ledger, and the metrics). -/
structure BacktestResult where
  equity_curve : List ℚ
  trades : List TradeRecord
  metrics : BacktestMetrics
deriving DecidableEq, Repr

instance : Inhabited BacktestResult := ⟨⟨[], [], ⟨0, 0, 0, 0, 0⟩⟩⟩

/-- Mutable locals of `BacktestEngine.run` while iterating over bars. -/
structure EngineState where
  in_position : Bool
  position_size : ℚ
  entry_price : ℚ
  entry_time : ℕ
  capital : ℚ
  trades : List TradeRecord
  equity : List ℚ
deriving Repr

/-- One signal dispatch inside the per-bar `while` loop of
`BacktestEngine.run`, at the current bar's close `price`. -/
def applySignal (initial_capital price : ℚ) (st : EngineState) (sig : Signal) : EngineState :=
  if sig.signal_type = SignalType.ENTRY_LONG ∧ st.in_position = false then
    if sig.size_fraction ≤ 0 then st
    else
      { st with
        position_size := st.capital * sig.size_fraction / price
        entry_price := price
        entry_time := sig.timestamp
        in_position := true }
  else if sig.signal_type = SignalType.EXIT_LONG ∧ st.in_position = true then
    let pnl := st.position_size * (price - st.entry_price)
    let ret_pct := pnl / max (1 / 1000000000) initial_capital
    { st with
      capital := st.capital + pnl
      trades := st.trades ++
        [⟨st.entry_time, st.entry_price, sig.timestamp, price, pnl, ret_pct, false⟩]
      position_size := 0
      in_position := false }
  else st

/-- The per-bar `while` loop: consume every pending signal whose timestamp
is at most the current bar's timestamp, in order. -/
def consumeSignals (initial_capital : ℚ) (ts : ℕ) (price : ℚ) :
    List Signal → EngineState → EngineState × List Signal
  | [], st => (st, [])
  | sig :: rest, st =>
    if sig.timestamp ≤ ts then
      consumeSignals initial_capital ts price rest (applySignal initial_capital price st sig)
    else (st, sig :: rest)

/-- One iteration of `for ts in df.index`: signal processing followed by
recording the bar's equity value. -/
def processBar (initial_capital : ℚ) (st : EngineState) (pending : List Signal)
    (bar : ℕ × ℚ) : EngineState × List Signal :=
  let price := bar.2
  let stp := consumeSignals initial_capital bar.1 price pending st
  let st1 := stp.1
  let eq_val :=
    if st1.in_position then st1.capital + st1.position_size * (price - st1.entry_price)
    else st1.capital
  ({ st1 with equity := st1.equity ++ [eq_val] }, stp.2)

/-- The bar loop of `BacktestEngine.run`. -/
def runBars (initial_capital : ℚ) :
    List (ℕ × ℚ) → EngineState → List Signal → EngineState × List Signal
  | [], st, pending => (st, pending)
  | b :: bs, st, pending =>
    let sp := processBar initial_capital st pending b
    runBars initial_capital bs sp.1 sp.2

/-- `BacktestEngine.run`.  Sorts bars by timestamp (`df.sort_index()`) and
signals by timestamp (`sorted(signals, key=...)`), runs the bar loop from
flat state, force-liquidates a still-open position at the final close
(overwriting the final equity value), and computes the metrics.  Returns
`none` for an empty bar list (where the Python seed
`equity_curve.iloc[0] = initial_capital` raises `IndexError`). -/
def run (initial_capital : ℚ) (signals : List Signal) (candles : List (ℕ × ℚ)) :
    Option BacktestResult :=
  match List.insertionSort (fun a b : ℕ × ℚ => a.1 ≤ b.1) candles with
  | [] => none
  | c :: cs =>
    let signals_sorted := List.insertionSort (fun s t : Signal => s.timestamp ≤ t.timestamp) signals
    let st0 : EngineState := ⟨false, 0, 0, 0, initial_capital, [], []⟩
    let stF := (runBars initial_capital (c :: cs) st0 signals_sorted).1
    let last_bar := cs.getLastD c
    let stG :=
      if stF.in_position = true ∧ 0 < stF.position_size then
        let pnl := stF.position_size * (last_bar.2 - stF.entry_price)
        let capital := stF.capital + pnl
        let ret_pct := pnl / max (1 / 1000000000) initial_capital
        { stF with
          capital := capital
          trades := stF.trades ++
            [⟨stF.entry_time, stF.entry_price, last_bar.1, last_bar.2, pnl, ret_pct, true⟩]
          position_size := 0
          in_position := false
          equity := stF.equity.dropLast ++ [capital] }
      else stF
    some ⟨stG.equity, stG.trades,
      compute_metrics stG.equity (stG.trades.map (fun t => t.return_pct))⟩

/-- Quality gate of the lab threshold check (rule 3 of the gate). -/
def labQuality (t : LabThresholds) (latest : BacktestRow) : Prop :=
  latest.total_return ≥ t.min_total_return ∧
  latest.max_drawdown ≥ -t.max_drawdown ∧
  latest.sharpe ≥ t.min_sharpe ∧
  latest.profit_factor ≥ t.min_profit_factor

instance (t : LabThresholds) (latest : BacktestRow) : Decidable (labQuality t latest) := by
  unfold labQuality; infer_instance

/-! ### Proof-infrastructure predicates for the two-signal backtest
(one ENTRY_LONG `e` followed by one EXIT_LONG `x`).  These describe the
three phases the simulator state machine passes through. -/

/-- The simulator has not yet consumed the entry signal: both signals
pending, flat, capital at its initial value, no trades. -/
def AwaitingEntry (ic : ℚ) (e x : Signal) (st : EngineState) (pending : List Signal) : Prop :=
  pending = [e, x] ∧ st.in_position = false ∧ st.capital = ic ∧ st.trades = []

/-- The entry has been consumed and the exit is still pending: in
position, sized at (initial capital × size_fraction) / entry price. -/
def Holding (ic : ℚ) (e x : Signal) (st : EngineState) (pending : List Signal) : Prop :=
  pending = [x] ∧ st.in_position = true ∧ st.capital = ic ∧ st.trades = [] ∧
  st.position_size = ic * e.size_fraction / st.entry_price

/-- Both signals are consumed: flat again, exactly one trade whose pnl is
quantity × (exit − entry), capital updated by that pnl, and the last
recorded equity value equal to the capital. -/
def Closed (ic : ℚ) (e : Signal) (st : EngineState) (pending : List Signal) : Prop :=
  pending = [] ∧ st.in_position = false ∧
  ∃ t : TradeRecord, st.trades = [t] ∧
    t.pnl = ic * e.size_fraction / t.entry_price * (t.exit_price - t.entry_price) ∧
    st.capital = ic + t.pnl ∧
    st.equity.getLast? = some st.capital

/-! ### Theorems -/

/-- Unfolding lemma for the signal loop on a pending signal. -/
theorem consumeSignals_cons (ic : ℚ) (ts : ℕ) (price : ℚ) (sig : Signal)
    (rest : List Signal) (st : EngineState) :
    consumeSignals ic ts price (sig :: rest) st =
      if sig.timestamp ≤ ts then
        consumeSignals ic ts price rest (applySignal ic price st sig)
      else (st, sig :: rest) := rfl

/-- Unfolding lemma for the signal loop with nothing pending. -/
theorem consumeSignals_nil (ic : ℚ) (ts : ℕ) (price : ℚ) (st : EngineState) :
    consumeSignals ic ts price [] st = (st, []) := rfl

/-- An ENTRY_LONG with positive size fraction while flat opens the
position at the current price. -/
theorem applySignal_entry (ic price : ℚ) (st : EngineState) (sig : Signal)
    (hty : sig.signal_type = SignalType.ENTRY_LONG) (hflat : st.in_position = false)
    (hfr : 0 < sig.size_fraction) :
    applySignal ic price st sig =
      { st with
        position_size := st.capital * sig.size_fraction / price
        entry_price := price
        entry_time := sig.timestamp
        in_position := true } := by
  unfold applySignal
  rw [if_pos ⟨hty, hflat⟩, if_neg (not_le.mpr hfr)]

/-- An EXIT_LONG while in position realizes the pnl, appends the trade
record and returns to flat. -/
theorem applySignal_exit (ic price : ℚ) (st : EngineState) (sig : Signal)
    (hty : sig.signal_type = SignalType.EXIT_LONG) (hpos : st.in_position = true) :
    applySignal ic price st sig =
      { st with
        capital := st.capital + st.position_size * (price - st.entry_price)
        trades := st.trades ++ [⟨st.entry_time, st.entry_price, sig.timestamp, price,
          st.position_size * (price - st.entry_price),
          st.position_size * (price - st.entry_price) / max (1 / 1000000000) ic, false⟩]
        position_size := 0
        in_position := false } := by
  unfold applySignal
  rw [if_neg (by simp [hty]), if_pos ⟨hty, hpos⟩]

/-- C6: with win_rate 0.55, avg_win 0.03, avg_loss 0.02, kelly_fraction
0.25, max_position_size 0.05 and confidence 1, the payoff ratio is 1.5,
the raw Kelly fraction is 0.25, and the sized output is
min(0.25 × 0.25 × 1, 0.05) = 0.05, capped at the maximum position size. -/
theorem C6_kelly_worked_example :
    kelly_b (3/100) |(2/100 : ℚ)| = 3/2 ∧
    kelly_raw (55/100) (3/2) = 1/4 ∧
    calculate_position_size ⟨1/4, 1/20⟩ (some 1)
      ⟨some (55/100), some (3/100), some (2/100)⟩ = 1/20 ∧
    (1/20 : ℚ) = min (1/4 * (1/4) * 1) (1/20) := by
  have habs : |(2/100 : ℚ)| = 2/100 := abs_of_pos (by norm_num)
  have hb : kelly_b (3/100) |(2/100 : ℚ)| = 3/2 := by
    rw [kelly_b, habs]; norm_num
  have hk : kelly_raw (55/100) (3/2) = 1/4 := by
    rw [kelly_raw]; norm_num
  refine ⟨hb, hk, ?_, by norm_num⟩
  have htry : calc_try ⟨1/4, 1/20⟩ ((some (1 : ℚ)).getD (7/10))
      ⟨some (55/100), some (3/100), some (2/100)⟩ = Except.ok (1/20) := by
    unfold calc_try
    dsimp only
    rw [if_neg (by rw [habs]; norm_num)]
    rw [hb, hk]
    norm_num [min_def, max_def]
  unfold calculate_position_size
  rw [htry]

/-- C10: the regime classifier maps every feature snapshot to exactly one
of the four labels panic/trend/quiet/chop, by the fixed priority order:
panic when vol > 0.05 and urgency > 0.5; else trend when |imbalance| >
0.15 and vol < 0.04; else quiet when vol < 0.015; else chop. -/
theorem C10_regime_priority (f : FeatureSnapshot) :
    (classify f = "panic" ∨ classify f = "trend" ∨ classify f = "quiet" ∨
      classify f = "chop") ∧
    (classify f = "panic" ↔
      f.realized_vol_24h.getD (2/100) > 5/100 ∧ f.social_urgency.getD 0 > 1/2) ∧
    (classify f = "trend" ↔
      ¬(f.realized_vol_24h.getD (2/100) > 5/100 ∧ f.social_urgency.getD 0 > 1/2) ∧
      (|f.orderbook_imbalance.getD 0| > 15/100 ∧ f.realized_vol_24h.getD (2/100) < 4/100)) ∧
    (classify f = "quiet" ↔
      ¬(f.realized_vol_24h.getD (2/100) > 5/100 ∧ f.social_urgency.getD 0 > 1/2) ∧
      ¬(|f.orderbook_imbalance.getD 0| > 15/100 ∧ f.realized_vol_24h.getD (2/100) < 4/100) ∧
      f.realized_vol_24h.getD (2/100) < 15/1000) ∧
    (classify f = "chop" ↔
      ¬(f.realized_vol_24h.getD (2/100) > 5/100 ∧ f.social_urgency.getD 0 > 1/2) ∧
      ¬(|f.orderbook_imbalance.getD 0| > 15/100 ∧ f.realized_vol_24h.getD (2/100) < 4/100) ∧
      ¬f.realized_vol_24h.getD (2/100) < 15/1000) := by
  simp only [classify]
  split_ifs with h1 h2 h3 <;>
    refine ⟨by tauto, ?_, ?_, ?_, ?_⟩ <;>
    simp_all

/-- C2 (amended): the lab gate follows the fixed rule order — too few
backtests → insufficient_data; else too few trades in the latest run →
insufficient_data; else all quality thresholds met → approved; else
negative return or profit factor below 1 → rejected; else experimental —
and re-evaluation with identical inputs is idempotent.  A strategy with 0
recorded backtests evaluates to insufficient_data whenever the configured
min_backtests is at least 1; for min_backtests ≤ 0 the code instead
raises IndexError on the empty backtest list (modelled as `none`). -/
theorem C2_lab_gate_rule_order (t : LabThresholds) (rows : List BacktestRow) :
    ((rows.length : ℤ) < t.min_backtests →
      evaluate_single t rows = some StrategyStatus.insufficient_data) ∧
    (∀ latest rest, rows = latest :: rest → ¬(rows.length : ℤ) < t.min_backtests →
      ((evaluate_single t rows = some StrategyStatus.insufficient_data ↔
          latest.num_trades < t.min_trades) ∧
       (evaluate_single t rows = some StrategyStatus.approved ↔
          ¬latest.num_trades < t.min_trades ∧ labQuality t latest) ∧
       (evaluate_single t rows = some StrategyStatus.rejected ↔
          ¬latest.num_trades < t.min_trades ∧ ¬labQuality t latest ∧
          (latest.total_return < 0 ∨ latest.profit_factor < 1)) ∧
       (evaluate_single t rows = some StrategyStatus.experimental ↔
          ¬latest.num_trades < t.min_trades ∧ ¬labQuality t latest ∧
          ¬(latest.total_return < 0 ∨ latest.profit_factor < 1)))) ∧
    (1 ≤ t.min_backtests → evaluate_single t [] = some StrategyStatus.insufficient_data) ∧
    (∀ s, evaluate_single t rows = some s → evaluate_single t rows = some s) := by
  refine ⟨fun h => ?_, fun latest rest hrows hge => ?_, fun h => ?_, fun s hs => hs⟩
  · unfold evaluate_single
    rw [if_pos h]
  · subst hrows
    unfold evaluate_single labQuality
    rw [if_neg hge]
    dsimp only
    split_ifs with h1 h2 h3 <;> simp_all [labQuality]
  · unfold evaluate_single
    have h0 : ((([] : List BacktestRow)).length : ℤ) < t.min_backtests := by
      simp only [List.length_nil, Nat.cast_zero]
      omega
    rw [if_pos h0]

/-- C2 counterexample: with a threshold configuration whose min_backtests
is 0, a strategy with 0 recorded backtests does not evaluate to
insufficient_data — the evaluation raises IndexError (modelled `none`). -/
theorem C2_counterexample_zero_min_backtests :
    evaluate_single ⟨0, 30, 1, 3/10, 1/10, 13/10⟩ [] = none ∧
    evaluate_single ⟨0, 30, 1, 3/10, 1/10, 13/10⟩ [] ≠
      some StrategyStatus.insufficient_data := by
  constructor <;> decide

/-- Witness for C2: a 0-backtest strategy is insufficient_data under the
default thresholds, and a strategy meeting every quality threshold with
enough trades is approved. -/
theorem C2_lab_gate_rule_order_witness :
    evaluate_single ⟨1, 30, 1, 3/10, 1/10, 13/10⟩ [] =
      some StrategyStatus.insufficient_data ∧
    evaluate_single ⟨1, 30, 1, 3/10, 1/10, 13/10⟩ [⟨2/10, -1/10, 3/2, 6/10, 2, 50⟩] =
      some StrategyStatus.approved := by
  constructor
  · exact (C2_lab_gate_rule_order ⟨1, 30, 1, 3/10, 1/10, 13/10⟩ []).2.2.1 (by decide)
  · exact ((C2_lab_gate_rule_order ⟨1, 30, 1, 3/10, 1/10, 13/10⟩
      [⟨2/10, -1/10, 3/2, 6/10, 2, 50⟩]).2.1 ⟨2/10, -1/10, 3/2, 6/10, 2, 50⟩ [] rfl
      (by decide)).2.1.mpr ⟨by decide, by norm_num [labQuality]⟩

/-- C9: the Kelly position sizer never propagates an exception — any
exception inside the arithmetic is replaced by half the configured
maximum position size, a zero avg_loss returns that same half-of-max
fallback, and so does any missing stats key. -/
theorem C9_kelly_exception_fallback (cfg : SizerConfig) (consensus : Option ℚ)
    (stats : KellyStats) :
    (calc_try cfg (consensus.getD (7/10)) stats = Except.error () →
      calculate_position_size cfg consensus stats = cfg.max_position * (1/2)) ∧
    (stats.avg_loss = some 0 →
      calculate_position_size cfg consensus stats = cfg.max_position * (1/2)) ∧
    ((stats.win_rate = none ∨ stats.avg_win = none ∨ stats.avg_loss = none) →
      calculate_position_size cfg consensus stats = cfg.max_position * (1/2)) := by
  obtain ⟨wr, aw, al⟩ := stats
  refine ⟨fun herr => ?_, fun hzero => ?_, fun hmiss => ?_⟩
  · unfold calculate_position_size
    rw [herr]
  · cases al with
    | none => exact absurd hzero (by simp)
    | some v =>
      have hv : v = 0 := by simpa using hzero
      subst hv
      cases wr <;> cases aw <;> rfl
  · cases wr <;> cases aw <;> cases al <;>
      first
        | rfl
        | (exfalso; rcases hmiss with h | h | h <;> simp at h)

/-- Witness for C9: a missing win_rate key and a zero avg_loss both give
half the maximum position size. -/
theorem C9_kelly_exception_fallback_witness :
    calculate_position_size ⟨1/4, 1/20⟩ none ⟨none, some 1, some 1⟩ = (1/20) * (1/2) ∧
    calculate_position_size ⟨1/4, 1/20⟩ (some 1) ⟨some (1/2), some 1, some 0⟩ =
      (1/20) * (1/2) := by
  constructor
  · exact (C9_kelly_exception_fallback ⟨1/4, 1/20⟩ none ⟨none, some 1, some 1⟩).2.2
      (Or.inl rfl)
  · exact (C9_kelly_exception_fallback ⟨1/4, 1/20⟩ (some 1) ⟨some (1/2), some 1, some 0⟩).2.1
      rfl

/-- C5: every id returned by the live approved-strategy selection matches
the requested pair and timeframe and has status approved, experimental or
insufficient_data — never rejected — and conversely every stored strategy
matching the pair/timeframe with one of those three statuses is
included. -/
theorem C5_selection_statuses (items : List StrategySummary) (pair timeframe sid : String) :
    (sid ∈ get_approved_strategies_for_pair items pair timeframe →
      ∃ s, s ∈ items ∧ s.id = sid ∧ s.pair = pair ∧ s.timeframe = timeframe ∧
        (s.status = "approved" ∨ s.status = "experimental" ∨
          s.status = "insufficient_data") ∧ s.status ≠ "rejected") ∧
    (∀ s, s ∈ items → s.pair = pair → s.timeframe = timeframe →
      (s.status = "approved" ∨ s.status = "experimental" ∨
        s.status = "insufficient_data") →
      s.id ∈ get_approved_strategies_for_pair items pair timeframe) := by
  constructor
  · intro hmem
    unfold get_approved_strategies_for_pair at hmem
    obtain ⟨s, hs, hid⟩ := List.mem_map.mp hmem
    obtain ⟨hsi, hcond⟩ := List.mem_filter.mp hs
    have hc := of_decide_eq_true hcond
    refine ⟨s, hsi, hid, hc.1, hc.2.1, hc.2.2, ?_⟩
    rcases hc.2.2 with h | h | h <;> rw [h] <;> decide
  · intro s hs hp ht hst
    unfold get_approved_strategies_for_pair
    exact List.mem_map.mpr ⟨s, List.mem_filter.mpr ⟨hs, decide_eq_true ⟨hp, ht, hst⟩⟩, rfl⟩

/-- Witness for C5: an experimental strategy for the requested pair and
timeframe is returned by the selection. -/
theorem C5_selection_statuses_witness :
    "s1" ∈ get_approved_strategies_for_pair
      [⟨"s1", "BTC/USDT", "15m", "experimental"⟩] "BTC/USDT" "15m" := by
  exact (C5_selection_statuses [⟨"s1", "BTC/USDT", "15m", "experimental"⟩]
    "BTC/USDT" "15m" "s1").2 ⟨"s1", "BTC/USDT", "15m", "experimental"⟩
    (by decide) rfl rfl (Or.inr (Or.inl rfl))

/-- Weight list of a 4-strategy portfolio under a positive tilt above the
0.1 threshold: the first half is favored 1.2x, the second half 0.8x. -/
theorem plan_portfolio_weights_pos_tilt (a b c2 d : String) (s c : ℚ)
    (ht : 1/10 < s * c) :
    (plan_portfolio [a, b, c2, d] s c).map (fun al => al.weight) =
      [3/10, 3/10, 1/5, 1/5] := by
  have hpos : (0 : ℚ) < s * c := lt_trans (by norm_num) ht
  have habs : |s * c| = s * c := abs_of_pos hpos
  unfold plan_portfolio portfolio_raw_weight
  simp [List.range_succ, habs]
  split_ifs <;> first | (exfalso; linarith) | (simp [Function.comp]; norm_num)

/-- Weight list of a 4-strategy portfolio when |tilt| is at most the 0.1
threshold: uniform weights. -/
theorem plan_portfolio_weights_small_tilt (a b c2 d : String) (s c : ℚ)
    (h : |s * c| ≤ 1/10) :
    (plan_portfolio [a, b, c2, d] s c).map (fun al => al.weight) =
      [1/4, 1/4, 1/4, 1/4] := by
  unfold plan_portfolio portfolio_raw_weight
  simp [List.range_succ]
  split_ifs <;> first | (exfalso; linarith) | (simp [Function.comp]; norm_num)

/-- Weight list of a 4-strategy portfolio under a negative tilt below the
−0.1 threshold: the second half is favored 1.2x, the first half 0.8x. -/
theorem plan_portfolio_weights_neg_tilt (a b c2 d : String) (s c : ℚ)
    (ht : s * c < -(1/10)) :
    (plan_portfolio [a, b, c2, d] s c).map (fun al => al.weight) =
      [1/5, 1/5, 3/10, 3/10] := by
  have hneg : s * c < 0 := by linarith
  have habs : |s * c| = -(s * c) := abs_of_neg hneg
  unfold plan_portfolio portfolio_raw_weight
  simp [List.range_succ, habs]
  split_ifs <;> first | (exfalso; linarith) | (simp [Function.comp]; norm_num)

/-- C4 (amended): over 4 distinct approved strategies, a tilt above 0.1
gives each of the first two strategies strictly more weight than each of
the last two, with total weight exactly 1; when |tilt| ≤ 0.1 all four get
weight 0.25.  (The claim's condition "tilt ≤ 0.1" must read "|tilt| ≤
0.1": for tilt < −0.1 the code favors the second half instead of
weighting uniformly.) -/
theorem C4_portfolio_tilt_amended (ids : List String) (s c : ℚ)
    (hlen : ids.length = 4) (hnd : ids.Nodup) :
    (1/10 < s * c →
      ((plan_portfolio ids s c).map (fun al => al.weight)).sum = 1 ∧
      ∀ wf ∈ ((plan_portfolio ids s c).map (fun al => al.weight)).take 2,
        ∀ ws ∈ ((plan_portfolio ids s c).map (fun al => al.weight)).drop 2, ws < wf) ∧
    (|s * c| ≤ 1/10 →
      (plan_portfolio ids s c).map (fun al => al.weight) = [1/4, 1/4, 1/4, 1/4]) := by
  obtain ⟨a, b, c2, d, rfl⟩ : ∃ a b c2 d, ids = [a, b, c2, d] := by
    match ids, hlen with
    | [a, b, c2, d], _ => exact ⟨a, b, c2, d, rfl⟩
  refine ⟨fun ht => ?_, fun hle => plan_portfolio_weights_small_tilt a b c2 d s c hle⟩
  rw [plan_portfolio_weights_pos_tilt a b c2 d s c ht]
  refine ⟨by norm_num, ?_⟩
  intro wf hwf ws hws
  simp only [List.take, List.drop, List.mem_cons, List.not_mem_nil, or_false] at hwf hws
  rcases hwf with rfl | rfl <;> rcases hws with rfl | rfl <;> norm_num

/-- C4 counterexample: with sentiment −1 and confidence 0.5 the tilt is
−0.5 ≤ 0.1, yet the four weights are not all 0.25 (the second half is
favored), refuting the claim's "tilt ≤ 0.1 ⇒ equal weights 0.25". -/
theorem C4_counterexample_negative_tilt :
    ((-1 : ℚ) * (1/2) ≤ 1/10) ∧
    (plan_portfolio ["s1", "s2", "s3", "s4"] (-1) (1/2)).map (fun al => al.weight) ≠
      [1/4, 1/4, 1/4, 1/4] := by
  have hw : (plan_portfolio ["s1", "s2", "s3", "s4"] (-1) (1/2)).map (fun al => al.weight)
      = [1/5, 1/5, 3/10, 3/10] :=
    plan_portfolio_weights_neg_tilt "s1" "s2" "s3" "s4" (-1) (1/2) (by norm_num)
  refine ⟨by norm_num, ?_⟩
  rw [hw]
  intro hcontra
  have := List.head_eq_of_cons_eq hcontra
  norm_num at this

/-- Witness for C4: a concrete tilted portfolio sums to 1, and a concrete
untilted portfolio is uniform. -/
theorem C4_portfolio_tilt_amended_witness :
    (((plan_portfolio ["a", "b", "c", "d"] 1 (1/2)).map (fun al => al.weight)).sum = 1) ∧
    ((plan_portfolio ["a", "b", "c", "d"] 0 0).map (fun al => al.weight) =
      [1/4, 1/4, 1/4, 1/4]) := by
  constructor
  · exact ((C4_portfolio_tilt_amended ["a", "b", "c", "d"] 1 (1/2) (by decide)
      (by decide)).1 (by norm_num)).1
  · exact (C4_portfolio_tilt_amended ["a", "b", "c", "d"] 0 0 (by decide) (by decide)).2
      (by norm_num)

/-- A non-empty list is not `isEmpty`. -/
theorem isEmpty_eq_false_of_ne_nil {α : Type} {l : List α} (h : l ≠ []) :
    l.isEmpty = false := by
  cases l with
  | nil => exact absurd rfl h
  | cons a t => rfl

/-- Summing a list divided elementwise by a constant. -/
theorem sum_map_div_eq (l : List ℚ) (c : ℚ) :
    (l.map (fun x => x / c)).sum = l.sum / c := by
  induction l with
  | nil => simp
  | cons a t ih => simp [ih, add_div]

/-- Summing the all-ones list over `l` gives the length of `l`. -/
theorem sum_map_one_eq {α : Type} (l : List α) :
    (l.map (fun _ => (1 : ℚ))).sum = (l.length : ℚ) := by
  induction l with
  | nil => simp
  | cons a t ih => simp [ih]; ring

/-- Folding `pyDictInsert` over pairs with fresh keys appends them in
order. -/
theorem pyDict_foldl_eq_append (l : List (String × ℚ)) :
    ∀ acc : List (String × ℚ), (((acc ++ l).map Prod.fst).Nodup) →
      l.foldl (fun m p => pyDictInsert m p.1 p.2) acc = acc ++ l := by
  induction l with
  | nil => intro acc _; simp
  | cons p t ih =>
    intro acc h
    obtain ⟨k, v⟩ := p
    have hrearr : acc ++ (k, v) :: t = (acc ++ [(k, v)]) ++ t := by simp
    have hk : ¬k ∈ acc.map Prod.fst := by
      intro hmem
      rw [List.map_append, List.nodup_append] at h
      exact h.2.2 hmem (by simp)
    have hins : pyDictInsert acc k v = acc ++ [(k, v)] := by
      unfold pyDictInsert
      rw [if_neg]
      simp only [List.any_eq_true, decide_eq_true_eq, not_exists]
      intro x hx
      exact hk (List.mem_map.mpr ⟨x, hx.1, hx.2⟩)
    rw [List.foldl_cons, hins, ih (acc ++ [(k, v)]) (by rw [← hrearr]; exact h)]
    simp

/-- Python dict construction is the identity on association lists with
pairwise-distinct keys. -/
theorem pyDict_eq_self {l : List (String × ℚ)} (h : (l.map Prod.fst).Nodup) :
    pyDict l = l := by
  unfold pyDict
  simpa using pyDict_foldl_eq_append l [] (by simpa using h)

/-- The weight mapping of a non-empty consensus with distinct agent ids is
the association of each agent id with its normalized weight. -/
theorem consensus_weights_eq (scores : String → ℚ) (l : List AgentResponse)
    (hne : l ≠ []) (hnd : (l.map (fun r => r.agent_id)).Nodup) :
    (calculate_weighted_consensus scores l).weights =
      (l.map (fun r => r.agent_id)).zip
        ((if (l.map (fun r => scores r.agent_id * r.confidence)).sum ≤ 0 then
            (l.map (fun r => scores r.agent_id * r.confidence)).map (fun _ => (1 : ℚ))
          else l.map (fun r => scores r.agent_id * r.confidence)).map
          (fun w =>
            w / (if (l.map (fun r => scores r.agent_id * r.confidence)).sum ≤ 0 then
                  (l.map (fun r => scores r.agent_id * r.confidence)).map (fun _ => (1 : ℚ))
                else l.map (fun r => scores r.agent_id * r.confidence)).sum)) := by
  have hni : ¬l.isEmpty = true := by simp [isEmpty_eq_false_of_ne_nil hne]
  unfold calculate_weighted_consensus
  rw [if_neg hni]
  dsimp only
  apply pyDict_eq_self
  rw [List.map_fst_zip]
  · exact hnd
  · simp only [List.length_map]
    split_ifs <;> simp

/-- C1: for a non-empty response list (with distinct agent ids, one
response per advisor) the normalized per-advisor weight mapping sums to
exactly 1 (hence certainly to 1 within 1e-9, whether or not a positive
raw weight exists); when the raw weight total is ≤ 0 the engine assigns
every supplied response the uniform weight 1/n; the empty list yields the
all-zero result with an empty weight mapping. -/
theorem C1_consensus_weight_normalization (scores : String → ℚ)
    (responses : List AgentResponse) :
    (responses ≠ [] → (responses.map (fun r => r.agent_id)).Nodup →
      ((calculate_weighted_consensus scores responses).weights.map Prod.snd).sum = 1) ∧
    (responses ≠ [] → (responses.map (fun r => r.agent_id)).Nodup →
      (responses.map (fun r => scores r.agent_id * r.confidence)).sum ≤ 0 →
      (calculate_weighted_consensus scores responses).weights =
        responses.map (fun r => (r.agent_id, 1 / (responses.length : ℚ)))) ∧
    calculate_weighted_consensus scores [] = ⟨0, 0, 0, []⟩ := by
  have hlen0 : (0 : ℚ) ≠ 0 → True := fun _ => trivial
  refine ⟨fun hne hnd => ?_, fun hne hnd hle => ?_, rfl⟩
  · rw [consensus_weights_eq scores responses hne hnd]
    rw [List.map_snd_zip]
    · by_cases hS : (responses.map (fun r => scores r.agent_id * r.confidence)).sum ≤ 0
      · simp only [if_pos hS]
        rw [sum_map_div_eq]
        apply div_self
        have hs1 : ((responses.map (fun r => scores r.agent_id * r.confidence)).map
            (fun _ => (1 : ℚ))).sum = (responses.length : ℚ) := by
          rw [List.map_map]
          exact sum_map_one_eq responses
        rw [hs1]
        exact_mod_cast Nat.pos_of_ne_zero
          (fun h0 => hne (List.length_eq_zero.mp h0)) |>.ne'
      · simp only [if_neg hS]
        rw [sum_map_div_eq]
        exact div_self (lt_of_not_le hS).ne'
    · simp only [List.length_map]
      split_ifs <;> simp
  · rw [consensus_weights_eq scores responses hne hnd]
    simp only [if_pos hle]
    have hs1 : ((responses.map (fun r => scores r.agent_id * r.confidence)).map
        (fun _ => (1 : ℚ))).sum = (responses.length : ℚ) := by
      rw [List.map_map]
      exact sum_map_one_eq responses
    rw [hs1, List.map_map, List.map_map]
    exact List.zip_map' (fun r => r.agent_id)
      (fun r => (1 : ℚ) / (responses.length : ℚ)) responses

/-- Witness for C1: a two-advisor consensus with positive weights sums to
1, a two-advisor consensus whose base scores zero out every weight falls
back to the uniform association, and the empty list gives the zero
result. -/
theorem C1_consensus_weight_normalization_witness :
    (((calculate_weighted_consensus (fun _ => 1)
        [⟨"a", 1, 1/2⟩, ⟨"b", 1/2, 1/4⟩]).weights.map Prod.snd).sum = 1) ∧
    ((calculate_weighted_consensus (fun _ => 0)
        [⟨"a", 1, 1/2⟩, ⟨"b", 1/2, 1⟩]).weights =
      ([⟨"a", 1, 1/2⟩, ⟨"b", 1/2, 1⟩] : List AgentResponse).map
        (fun r => (r.agent_id,
          1 / (([⟨"a", 1, 1/2⟩, ⟨"b", 1/2, 1⟩] : List AgentResponse).length : ℚ)))) ∧
    calculate_weighted_consensus (fun _ => 1) [] = ⟨0, 0, 0, []⟩ := by
  refine ⟨(C1_consensus_weight_normalization (fun _ => 1) _).1 (by simp) (by simp),
    (C1_consensus_weight_normalization (fun _ => 0) _).2.1 (by simp) (by simp) (by simp),
    (C1_consensus_weight_normalization (fun _ => 1) []).2.2⟩

/-- The consensus sentiment as a single sum over the response list: each
response contributes its normalized weight times its sentiment. -/
theorem consensus_sentiment_sum (scores : String → ℚ) (l : List AgentResponse)
    (hne : l ≠ []) :
    (calculate_weighted_consensus scores l).sentiment =
      (l.map (fun r =>
        (if (l.map (fun r2 => scores r2.agent_id * r2.confidence)).sum ≤ 0 then
          (1 : ℚ) / (l.length : ℚ)
         else (scores r.agent_id * r.confidence) /
           (l.map (fun r2 => scores r2.agent_id * r2.confidence)).sum) * r.sentiment)).sum := by
  have hni : ¬l.isEmpty = true := by simp [isEmpty_eq_false_of_ne_nil hne]
  unfold calculate_weighted_consensus
  rw [if_neg hni]
  dsimp only
  by_cases hS : (l.map (fun r => scores r.agent_id * r.confidence)).sum ≤ 0
  · simp only [if_pos hS]
    have hs1 : ((l.map (fun r => scores r.agent_id * r.confidence)).map
        (fun _ => (1 : ℚ))).sum = (l.length : ℚ) := by
      rw [List.map_map]
      exact sum_map_one_eq l
    rw [hs1]
    simp only [List.map_map, List.zip_map', Function.comp]
    rfl
  · simp only [if_neg hS]
    simp only [List.map_map, List.zip_map', Function.comp]
    rfl

/-- The consensus confidence as a single sum over the response list. -/
theorem consensus_confidence_sum (scores : String → ℚ) (l : List AgentResponse)
    (hne : l ≠ []) :
    (calculate_weighted_consensus scores l).confidence =
      (l.map (fun r =>
        (if (l.map (fun r2 => scores r2.agent_id * r2.confidence)).sum ≤ 0 then
          (1 : ℚ) / (l.length : ℚ)
         else (scores r.agent_id * r.confidence) /
           (l.map (fun r2 => scores r2.agent_id * r2.confidence)).sum) * r.confidence)).sum := by
  have hni : ¬l.isEmpty = true := by simp [isEmpty_eq_false_of_ne_nil hne]
  unfold calculate_weighted_consensus
  rw [if_neg hni]
  dsimp only
  by_cases hS : (l.map (fun r => scores r.agent_id * r.confidence)).sum ≤ 0
  · simp only [if_pos hS]
    have hs1 : ((l.map (fun r => scores r.agent_id * r.confidence)).map
        (fun _ => (1 : ℚ))).sum = (l.length : ℚ) := by
      rw [List.map_map]
      exact sum_map_one_eq l
    rw [hs1]
    simp only [List.map_map, List.zip_map', Function.comp]
    rfl
  · simp only [if_neg hS]
    simp only [List.map_map, List.zip_map', Function.comp]
    rfl

/-- The dissent variance (squared population standard deviation of the
raw sentiments) as a single sum over the response list. -/
theorem consensus_variance_sum (scores : String → ℚ) (l : List AgentResponse)
    (hne : l ≠ []) :
    (calculate_weighted_consensus scores l).dissent_variance =
      (l.map (fun r =>
        (r.sentiment - (l.map (fun r2 => r2.sentiment)).sum / (l.length : ℚ)) ^ 2)).sum /
        (l.length : ℚ) := by
  have hni : ¬l.isEmpty = true := by simp [isEmpty_eq_false_of_ne_nil hne]
  unfold calculate_weighted_consensus
  rw [if_neg hni]
  dsimp only
  simp only [List.length_map, List.map_map, Function.comp]
  rfl

/-- C8: the consensus sentiment, confidence and dissent score are
invariant under any permutation of the response list (the dissent score
being the square root of the population variance of the raw unweighted
sentiments). -/
theorem C8_consensus_permutation_invariance (scores : String → ℚ)
    (l₁ l₂ : List AgentResponse) (h : l₁.Perm l₂) :
    (calculate_weighted_consensus scores l₁).sentiment =
      (calculate_weighted_consensus scores l₂).sentiment ∧
    (calculate_weighted_consensus scores l₁).confidence =
      (calculate_weighted_consensus scores l₂).confidence ∧
    dissent_score (calculate_weighted_consensus scores l₁) =
      dissent_score (calculate_weighted_consensus scores l₂) := by
  rcases eq_or_ne l₁ [] with rfl | hne₁
  · rw [List.Perm.eq_nil h.symm]
    exact ⟨rfl, rfl, rfl⟩
  · have hne₂ : l₂ ≠ [] := fun he => hne₁ (List.Perm.eq_nil (he ▸ h))
    have hS : (l₁.map (fun r => scores r.agent_id * r.confidence)).sum =
        (l₂.map (fun r => scores r.agent_id * r.confidence)).sum :=
      (h.map _).sum_eq
    have hn : l₁.length = l₂.length := h.length_eq
    have hsent : (l₁.map (fun r2 => r2.sentiment)).sum =
        (l₂.map (fun r2 => r2.sentiment)).sum :=
      (h.map _).sum_eq
    refine ⟨?_, ?_, ?_⟩
    · rw [consensus_sentiment_sum scores l₁ hne₁, consensus_sentiment_sum scores l₂ hne₂,
        hS, hn]
      exact (h.map _).sum_eq
    · rw [consensus_confidence_sum scores l₁ hne₁, consensus_confidence_sum scores l₂ hne₂,
        hS, hn]
      exact (h.map _).sum_eq
    · have hv : (calculate_weighted_consensus scores l₁).dissent_variance =
          (calculate_weighted_consensus scores l₂).dissent_variance := by
        rw [consensus_variance_sum scores l₁ hne₁, consensus_variance_sum scores l₂ hne₂,
          hsent, hn]
        rw [(h.map (fun r =>
          (r.sentiment - (l₂.map (fun r2 => r2.sentiment)).sum / (l₂.length : ℚ)) ^ 2)).sum_eq]
      unfold dissent_score
      rw [hv]

/-- Witness for C8: swapping a concrete two-advisor list leaves
sentiment, confidence and dissent score unchanged. -/
theorem C8_consensus_permutation_invariance_witness :
    (calculate_weighted_consensus (fun _ => 1)
        [⟨"a", 1, 1/2⟩, ⟨"b", -1, 1/4⟩]).sentiment =
      (calculate_weighted_consensus (fun _ => 1)
        [⟨"b", -1, 1/4⟩, ⟨"a", 1, 1/2⟩]).sentiment ∧
    (calculate_weighted_consensus (fun _ => 1)
        [⟨"a", 1, 1/2⟩, ⟨"b", -1, 1/4⟩]).confidence =
      (calculate_weighted_consensus (fun _ => 1)
        [⟨"b", -1, 1/4⟩, ⟨"a", 1, 1/2⟩]).confidence ∧
    dissent_score (calculate_weighted_consensus (fun _ => 1)
        [⟨"a", 1, 1/2⟩, ⟨"b", -1, 1/4⟩]) =
      dissent_score (calculate_weighted_consensus (fun _ => 1)
        [⟨"b", -1, 1/4⟩, ⟨"a", 1, 1/2⟩]) :=
  C8_consensus_permutation_invariance (fun _ => 1) _ _
    (List.Perm.swap (⟨"b", -1, 1/4⟩ : AgentResponse) (⟨"a", 1, 1/2⟩ : AgentResponse) [])

/-- Every pair of the zip of a list with its running maximum (seeded at
`m`) has its first component at most its second, and `m` at most its
second. -/
theorem cummaxAux_bounds (l : List ℚ) :
    ∀ (m : ℚ) (p : ℚ × ℚ), p ∈ l.zip (cummaxAux m l) → p.1 ≤ p.2 ∧ m ≤ p.2 := by
  induction l with
  | nil => intro m p hp; simp at hp
  | cons a t ih =>
    intro m p hp
    rw [cummaxAux, List.zip_cons_cons, List.mem_cons] at hp
    rcases hp with rfl | hp
    · exact ⟨le_max_right m a, le_max_left m a⟩
    · have hb := ih (max m a) p hp
      exact ⟨hb.1, le_trans (le_max_left m a) hb.2⟩

/-- Folding `min` keeps any upper bound of the seed. -/
theorem foldl_min_le (c : ℚ) : ∀ (t : List ℚ) (a : ℚ), a ≤ c → t.foldl min a ≤ c := by
  intro t
  induction t with
  | nil => intro a h; exact h
  | cons b tb ih => intro a h; exact ih (min a b) (le_trans (min_le_left a b) h)

/-- `listMin` of a list of nonpositive values is nonpositive. -/
theorem listMin_nonpos (l : List ℚ) (h : ∀ x ∈ l, x ≤ 0) : listMin l ≤ 0 := by
  cases l with
  | nil => exact le_refl 0
  | cons a t => exact foldl_min_le 0 t a (h a (by simp))

/-- The computed max drawdown is nonpositive whenever the equity curve
starts at a positive value. -/
theorem compute_metrics_max_drawdown_nonpos (eq_curve tr : List ℚ) (a : ℚ)
    (ha : eq_curve.head? = some a) (hpos : 0 < a) :
    (compute_metrics eq_curve tr).max_drawdown ≤ 0 := by
  cases eq_curve with
  | nil => simp at ha
  | cons b t =>
    have hb : b = a := by simpa using ha
    subst hb
    have hposb : (0 : ℚ) < b := hpos
    unfold compute_metrics
    dsimp only
    apply listMin_nonpos
    intro x hx
    rw [List.mem_map] at hx
    obtain ⟨p, hp, rfl⟩ := hx
    rw [cummax, List.zip_cons_cons, List.mem_cons] at hp
    rcases hp with rfl | hp
    · simp [div_self hposb.ne']
    · have hb2 := cummaxAux_bounds t b p hp
      have h2 : 0 < p.2 := lt_of_lt_of_le hposb hb2.2
      have h3 : p.1 / p.2 ≤ 1 := (div_le_one h2).mpr hb2.1
      linarith

/-- Dropping the last element and appending keeps the head of a list with
at least two elements. -/
theorem head_dropLast_append (l : List ℚ) (x : ℚ) (h : 2 ≤ l.length) :
    (l.dropLast ++ [x]).head? = l.head? := by
  match l, h with
  | a :: b :: t, _ => rfl

/-- A signal dispatch never touches the equity curve. -/
theorem applySignal_equity (ic price : ℚ) (st : EngineState) (sig : Signal) :
    (applySignal ic price st sig).equity = st.equity := by
  unfold applySignal
  split_ifs <;> rfl

/-- The signal loop of one bar never touches the equity curve. -/
theorem consumeSignals_equity (ic : ℚ) (ts : ℕ) (price : ℚ) :
    ∀ (pending : List Signal) (st : EngineState),
      (consumeSignals ic ts price pending st).1.equity = st.equity := by
  intro pending
  induction pending with
  | nil => intro st; rfl
  | cons sig rest ih =>
    intro st
    unfold consumeSignals
    split_ifs with hts
    · rw [ih (applySignal ic price st sig), applySignal_equity]
    · rfl

/-- A signal dispatch at price `price` preserves the marked-to-market
value `capital + unrealized pnl at price`. -/
theorem applySignal_mark (ic price cap : ℚ) (st : EngineState) (sig : Signal)
    (h : st.capital +
      (if st.in_position = true then st.position_size * (price - st.entry_price) else 0) =
      cap) :
    (applySignal ic price st sig).capital +
      (if (applySignal ic price st sig).in_position = true then
        (applySignal ic price st sig).position_size *
          (price - (applySignal ic price st sig).entry_price)
       else 0) = cap := by
  unfold applySignal
  by_cases h1 : sig.signal_type = SignalType.ENTRY_LONG ∧ st.in_position = false
  · rw [if_pos h1]
    by_cases h2 : sig.size_fraction ≤ 0
    · rw [if_pos h2]; exact h
    · rw [if_neg h2]
      dsimp only
      rw [h1.2] at h
      simp only [Bool.false_eq_true, if_false, add_zero] at h
      simpa using h
  · rw [if_neg h1]
    by_cases h3 : sig.signal_type = SignalType.EXIT_LONG ∧ st.in_position = true
    · rw [if_pos h3]
      dsimp only
      rw [h3.2, if_pos rfl] at h
      simpa using h
    · rw [if_neg h3]; exact h

/-- The signal loop of one bar preserves the marked-to-market value at
that bar's price. -/
theorem consumeSignals_mark (ic : ℚ) (ts : ℕ) (price cap : ℚ) :
    ∀ (pending : List Signal) (st : EngineState),
      st.capital +
        (if st.in_position = true then st.position_size * (price - st.entry_price) else 0) =
        cap →
      (consumeSignals ic ts price pending st).1.capital +
        (if (consumeSignals ic ts price pending st).1.in_position = true then
          (consumeSignals ic ts price pending st).1.position_size *
            (price - (consumeSignals ic ts price pending st).1.entry_price)
         else 0) = cap := by
  intro pending
  induction pending with
  | nil => intro st h; exact h
  | cons sig rest ih =>
    intro st h
    unfold consumeSignals
    by_cases hts : sig.timestamp ≤ ts
    · rw [if_pos hts]
      exact ih (applySignal ic price st sig) (applySignal_mark ic price cap st sig h)
    · rw [if_neg hts]
      exact h

/-- Processing one bar appends exactly one equity value. -/
theorem processBar_equity (ic : ℚ) (st : EngineState) (pending : List Signal)
    (bar : ℕ × ℚ) :
    ∃ v, (processBar ic st pending bar).1.equity = st.equity ++ [v] := by
  unfold processBar
  dsimp only
  rw [consumeSignals_equity]
  exact ⟨_, rfl⟩

/-- Processing the first bar from the flat initial state records the
initial capital as the first equity value, and the state after the bar is
marked-to-market at exactly the initial capital. -/
theorem processBar_first (ic cap : ℚ) (pending : List Signal) (bar : ℕ × ℚ)
    (st : EngineState) (hflat : st.in_position = false) (hcapital : st.capital = cap)
    (heq : st.equity = []) :
    (processBar ic st pending bar).1.equity = [cap] ∧
    (processBar ic st pending bar).1.capital +
      (if (processBar ic st pending bar).1.in_position = true then
        (processBar ic st pending bar).1.position_size *
          (bar.2 - (processBar ic st pending bar).1.entry_price)
       else 0) = cap := by
  have hmark0 : st.capital +
      (if st.in_position = true then st.position_size * (bar.2 - st.entry_price) else 0) =
      cap := by
    rw [hflat]
    simpa using hcapital
  have hm := consumeSignals_mark ic bar.1 bar.2 cap pending st hmark0
  have he := consumeSignals_equity ic bar.1 bar.2 pending st
  unfold processBar
  dsimp only
  constructor
  · rw [he, heq]
    by_cases hip : (consumeSignals ic bar.1 bar.2 pending st).1.in_position = true <;>
      simp only [hip, if_pos, if_true, Bool.not_eq_true] at hm ⊢ <;>
      simp_all
  · by_cases hip : (consumeSignals ic bar.1 bar.2 pending st).1.in_position = true <;>
      simp_all

/-- The bar loop only appends equity values: the head, length and
non-emptiness of the equity curve evolve accordingly. -/
theorem runBars_equity_head (ic : ℚ) :
    ∀ (bars : List (ℕ × ℚ)) (st : EngineState) (pending : List Signal),
      st.equity ≠ [] →
      (runBars ic bars st pending).1.equity.head? = st.equity.head? ∧
      (runBars ic bars st pending).1.equity.length = st.equity.length + bars.length ∧
      (runBars ic bars st pending).1.equity ≠ [] := by
  intro bars
  induction bars with
  | nil => intro st pending h; exact ⟨rfl, by simp [runBars], h⟩
  | cons b bs ih =>
    intro st pending h
    obtain ⟨v, hv⟩ := processBar_equity ic st pending b
    simp only [runBars]
    obtain ⟨ih1, ih2, ih3⟩ :=
      ih (processBar ic st pending b).1 (processBar ic st pending b).2 (by rw [hv]; simp)
    refine ⟨?_, ?_, ih3⟩
    · rw [ih1, hv]
      cases hse : st.equity with
      | nil => exact absurd hse h
      | cons a t => simp
    · rw [ih2, hv]
      simp only [List.length_append, List.length_cons, List.length_nil]
      omega

/-- The equity curve of every successful backtest run is non-empty and
starts at the initial capital. -/
theorem run_equity_head (ic : ℚ) (signals : List Signal) (candles : List (ℕ × ℚ)) :
    (run ic signals candles).elim True (fun res =>
      res.equity_curve.head? = some ic ∧ res.equity_curve ≠ []) := by
  unfold run
  cases hs : List.insertionSort (fun a b : ℕ × ℚ => a.1 ≤ b.1) candles with
  | nil => trivial
  | cons c cs =>
    dsimp only [Option.elim]
    simp only [runBars]
    obtain ⟨hpe, hpm⟩ := processBar_first ic ic
      (List.insertionSort (fun s t : Signal => s.timestamp ≤ t.timestamp) signals) c
      ⟨false, 0, 0, 0, ic, [], []⟩ rfl rfl rfl
    set st1 := (processBar ic ⟨false, 0, 0, 0, ic, [], []⟩
      (List.insertionSort (fun s t : Signal => s.timestamp ≤ t.timestamp) signals) c).1
      with hst1
    set p1 := (processBar ic ⟨false, 0, 0, 0, ic, [], []⟩
      (List.insertionSort (fun s t : Signal => s.timestamp ≤ t.timestamp) signals) c).2
      with hp1
    obtain ⟨hh, hl, hne⟩ := runBars_equity_head ic cs st1 p1 (by rw [hpe]; simp)
    split_ifs with hforce
    · -- forced liquidation: the last equity value is overwritten
      cases cs with
      | nil =>
        -- single bar: the whole curve is [capital after forced exit] = [ic]
        have hstF : (runBars ic [] st1 p1).1 = st1 := rfl
        rw [hstF] at hforce ⊢
        dsimp only
        rw [hpe]
        have hcap : st1.capital + st1.position_size * (c.2 - st1.entry_price) = ic := by
          rw [hforce.1] at hpm
          simpa using hpm
        constructor
        · simp [hcap]
        · simp
      | cons c2 cs2 =>
        dsimp only
        refine ⟨?_, by simp⟩
        rw [head_dropLast_append _ _ (by rw [hl, hpe]; simp; omega), hh, hpe]
        rfl
    · exact ⟨by rw [hh, hpe]; rfl, hne⟩

/-- The metrics of every successful run are computed from its own equity
curve and trade returns. -/
theorem run_metrics_shape (ic : ℚ) (signals : List Signal) (candles : List (ℕ × ℚ)) :
    (run ic signals candles).elim True (fun res =>
      res.metrics = compute_metrics res.equity_curve (res.trades.map (fun t => t.return_pct))) := by
  unfold run
  cases hs : List.insertionSort (fun a b : ℕ × ℚ => a.1 ≤ b.1) candles with
  | nil => trivial
  | cons c cs =>
    rfl

/-- C7: for every backtest run from a positive initial capital, the
computed max_drawdown is nonpositive and the computed total_return equals
the final equity value divided by the first equity value, minus 1,
exactly. -/
theorem C7_metrics_drawdown_and_return (initial_capital : ℚ) (signals : List Signal)
    (candles : List (ℕ × ℚ)) (hcap : 0 < initial_capital) :
    (run initial_capital signals candles).elim True (fun res =>
      res.metrics.max_drawdown ≤ 0 ∧
      res.metrics.total_return =
        res.equity_curve.getLast?.getD 0 / res.equity_curve.head?.getD 0 - 1) := by
  have hhead := run_equity_head initial_capital signals candles
  have hshape := run_metrics_shape initial_capital signals candles
  cases hr : run initial_capital signals candles with
  | none => trivial
  | some res =>
    rw [hr] at hhead hshape
    dsimp only [Option.elim] at hhead hshape ⊢
    refine ⟨?_, ?_⟩
    · rw [hshape]
      exact compute_metrics_max_drawdown_nonpos res.equity_curve
        (res.trades.map (fun t => t.return_pct)) initial_capital hhead.1 hcap
    · rw [hshape]
      rfl

/-- Witness for C7: a one-bar run from capital 100. -/
theorem C7_metrics_drawdown_and_return_witness :
    (0 : ℚ) < 100 ∧
    (run 100 [] [(0, 5)]).elim True (fun res =>
      res.metrics.max_drawdown ≤ 0 ∧
      res.metrics.total_return =
        res.equity_curve.getLast?.getD 0 / res.equity_curve.head?.getD 0 - 1) :=
  ⟨by norm_num, C7_metrics_drawdown_and_return 100 [] [(0, 5)] (by norm_num)⟩

/-- One bar of the two-signal backtest advances the phase machine:
the state stays in one of the three phases, and once the bar timestamp
reaches both signal timestamps the trade is closed. -/
theorem processBar_step (ic : ℚ) (e x : Signal)
    (he : e.signal_type = SignalType.ENTRY_LONG) (hf : 0 < e.size_fraction)
    (hx : x.signal_type = SignalType.EXIT_LONG)
    (bar : ℕ × ℚ) (st : EngineState) (pending : List Signal)
    (h : AwaitingEntry ic e x st pending ∨ Holding ic e x st pending ∨
      Closed ic e st pending) :
    (AwaitingEntry ic e x (processBar ic st pending bar).1 (processBar ic st pending bar).2 ∨
     Holding ic e x (processBar ic st pending bar).1 (processBar ic st pending bar).2 ∨
     Closed ic e (processBar ic st pending bar).1 (processBar ic st pending bar).2) ∧
    (e.timestamp ≤ bar.1 → x.timestamp ≤ bar.1 →
      Closed ic e (processBar ic st pending bar).1 (processBar ic st pending bar).2) := by
  rcases h with ⟨hp, hflat, hcap, htr⟩ | ⟨hp, hpos, hcap, htr, hq⟩ | ⟨hp, hflat, t, htr, hpnl, hcap, heq⟩
  · -- awaiting the entry signal
    subst hp
    unfold processBar
    dsimp only
    by_cases hts1 : e.timestamp ≤ bar.1
    · rw [consumeSignals_cons, if_pos hts1,
        applySignal_entry ic bar.2 st e he hflat hf]
      by_cases hts2 : x.timestamp ≤ bar.1
      · rw [consumeSignals_cons, if_pos hts2,
          applySignal_exit ic bar.2 _ x hx rfl, consumeSignals_nil]
        dsimp only
        constructor
        · refine Or.inr (Or.inr ⟨rfl, rfl, ⟨e.timestamp, bar.2, x.timestamp, bar.2,
            st.capital * e.size_fraction / bar.2 * (bar.2 - bar.2),
            st.capital * e.size_fraction / bar.2 * (bar.2 - bar.2) /
              max (1 / 1000000000) ic, false⟩, by rw [htr]; rfl, ?_, ?_, ?_⟩)
          · dsimp only
            rw [hcap]
          · dsimp only
            rw [hcap]
          · dsimp only
            rw [List.getLast?_concat]
            simp
        · intro h1 h2
          refine ⟨rfl, rfl, ⟨e.timestamp, bar.2, x.timestamp, bar.2,
            st.capital * e.size_fraction / bar.2 * (bar.2 - bar.2),
            st.capital * e.size_fraction / bar.2 * (bar.2 - bar.2) /
              max (1 / 1000000000) ic, false⟩, by rw [htr]; rfl, ?_, ?_, ?_⟩
          · dsimp only
            rw [hcap]
          · dsimp only
            rw [hcap]
          · dsimp only
            rw [List.getLast?_concat]
            simp
      · rw [consumeSignals_cons, if_neg hts2]
        dsimp only
        constructor
        · exact Or.inr (Or.inl ⟨rfl, rfl, hcap, htr, by rw [hcap]⟩)
        · intro h1 h2
          exact absurd h2 hts2
    · rw [consumeSignals_cons, if_neg hts1]
      dsimp only
      constructor
      · exact Or.inl ⟨rfl, hflat, hcap, htr⟩
      · intro h1 h2
        exact absurd h1 hts1
  · -- holding the position, awaiting the exit signal
    subst hp
    unfold processBar
    dsimp only
    by_cases hts2 : x.timestamp ≤ bar.1
    · rw [consumeSignals_cons, if_pos hts2,
        applySignal_exit ic bar.2 st x hx hpos, consumeSignals_nil]
      dsimp only
      have hclosed : Closed ic e
          ⟨false, 0, st.entry_price, st.entry_time,
            st.capital + st.position_size * (bar.2 - st.entry_price),
            st.trades ++ [⟨st.entry_time, st.entry_price, x.timestamp, bar.2,
              st.position_size * (bar.2 - st.entry_price),
              st.position_size * (bar.2 - st.entry_price) / max (1 / 1000000000) ic, false⟩],
            st.equity ++ [st.capital + st.position_size * (bar.2 - st.entry_price)]⟩ [] := by
        refine ⟨rfl, rfl, ⟨st.entry_time, st.entry_price, x.timestamp, bar.2,
          st.position_size * (bar.2 - st.entry_price),
          st.position_size * (bar.2 - st.entry_price) / max (1 / 1000000000) ic, false⟩,
          by rw [htr]; rfl, ?_, ?_, ?_⟩
        · dsimp only
          rw [hq]
        · dsimp only
          rw [hcap]
        · dsimp only
          rw [List.getLast?_concat]
      constructor
      · exact Or.inr (Or.inr hclosed)
      · intro h1 h2
        exact hclosed
    · rw [consumeSignals_cons, if_neg hts2]
      dsimp only
      constructor
      · exact Or.inr (Or.inl ⟨rfl, hpos, hcap, htr, hq⟩)
      · intro h1 h2
        exact absurd h2 hts2
  · -- trade already closed
    subst hp
    unfold processBar
    dsimp only
    rw [consumeSignals_nil]
    dsimp only
    have hclosed : Closed ic e { st with equity := st.equity ++
        [if st.in_position = true then
          st.capital + st.position_size * (bar.2 - st.entry_price)
         else st.capital] } [] := by
      refine ⟨rfl, hflat, t, htr, hpnl, hcap, ?_⟩
    -- last equity value: the state is flat, so the appended value is the capital
      dsimp only
      rw [hflat]
      simp only [Bool.false_eq_true, if_false]
      rw [List.getLast?_concat]
    constructor
    · exact Or.inr (Or.inr hclosed)
    · intro h1 h2
      exact hclosed

/-- The bar loop of the two-signal backtest stays in the phase machine,
and reaches the closed phase when the last bar's timestamp is at or after
both signal timestamps. -/
theorem runBars_two_signal (ic : ℚ) (e x : Signal)
    (he : e.signal_type = SignalType.ENTRY_LONG) (hf : 0 < e.size_fraction)
    (hx : x.signal_type = SignalType.EXIT_LONG) :
    ∀ (bars : List (ℕ × ℚ)) (st : EngineState) (pending : List Signal),
      (AwaitingEntry ic e x st pending ∨ Holding ic e x st pending ∨
        Closed ic e st pending) →
      ((AwaitingEntry ic e x (runBars ic bars st pending).1 (runBars ic bars st pending).2 ∨
        Holding ic e x (runBars ic bars st pending).1 (runBars ic bars st pending).2 ∨
        Closed ic e (runBars ic bars st pending).1 (runBars ic bars st pending).2) ∧
       (∀ lb, bars.getLast? = some lb → e.timestamp ≤ lb.1 → x.timestamp ≤ lb.1 →
         Closed ic e (runBars ic bars st pending).1 (runBars ic bars st pending).2)) := by
  intro bars
  induction bars with
  | nil =>
    intro st pending h
    exact ⟨h, fun lb hlb => by simp at hlb⟩
  | cons b bs ih =>
    intro st pending h
    obtain ⟨hstep, hstep3⟩ := processBar_step ic e x he hf hx b st pending h
    simp only [runBars]
    obtain ⟨ih1, ih2⟩ := ih (processBar ic st pending b).1 (processBar ic st pending b).2 hstep
    refine ⟨ih1, ?_⟩
    intro lb hlb hle hlx
    cases bs with
    | nil =>
      have hb : b = lb := by simpa using hlb
      subst hb
      exact hstep3 hle hlx
    | cons b2 bs2 =>
      exact ih2 lb (by rw [← List.getLast?_cons_cons]; exact hlb) hle hlx

/-- C3: a backtest over a non-empty, strictly increasing price-bar
sequence with positive closes, fed exactly one ENTRY_LONG signal with
positive size fraction followed by one EXIT_LONG signal, both within the
bar window, produces exactly one TradeRecord, whose pnl equals the
position quantity (initial capital × size fraction / entry price) times
(exit price − entry price), and a final equity value equal to the initial
capital plus that pnl. -/
theorem C3_backtest_single_trade (initial_capital : ℚ) (e x : Signal)
    (candles : List (ℕ × ℚ))
    (hne : candles ≠ [])
    (hsorted : candles.Pairwise (fun a b => a.1 < b.1))
    (hprices : ∀ b ∈ candles, 0 < b.2)
    (he : e.signal_type = SignalType.ENTRY_LONG)
    (hf : 0 < e.size_fraction)
    (hx : x.signal_type = SignalType.EXIT_LONG)
    (hex : e.timestamp ≤ x.timestamp)
    (hwin : x.timestamp ≤ ((candles.getLast?).getD (0, 0)).1) :
    (run initial_capital [e, x] candles).isSome = true ∧
    ((run initial_capital [e, x] candles).getD default).trades.length = 1 ∧
    ((run initial_capital [e, x] candles).getD default).trades.headI.pnl =
      initial_capital * e.size_fraction /
        ((run initial_capital [e, x] candles).getD default).trades.headI.entry_price *
        (((run initial_capital [e, x] candles).getD default).trades.headI.exit_price -
          ((run initial_capital [e, x] candles).getD default).trades.headI.entry_price) ∧
    ((run initial_capital [e, x] candles).getD default).equity_curve.getLast?.getD 0 =
      initial_capital +
        ((run initial_capital [e, x] candles).getD default).trades.headI.pnl := by
  have hsorted2 : candles.Sorted (fun a b : ℕ × ℚ => a.1 ≤ b.1) :=
    hsorted.imp le_of_lt
  have hsig : List.Sorted (fun s t : Signal => s.timestamp ≤ t.timestamp) [e, x] := by
    simp [List.sorted_cons]
    exact hex
  unfold run
  rw [hsorted2.insertionSort_eq, hsig.insertionSort_eq]
  rcases candles with _ | ⟨c, cs⟩
  · exact absurd rfl hne
  · dsimp only
    have hstart : AwaitingEntry initial_capital e x
        ⟨false, 0, 0, 0, initial_capital, [], []⟩ [e, x] ∨
        Holding initial_capital e x ⟨false, 0, 0, 0, initial_capital, [], []⟩ [e, x] ∨
        Closed initial_capital e ⟨false, 0, 0, 0, initial_capital, [], []⟩ [e, x] :=
      Or.inl ⟨rfl, rfl, rfl, rfl⟩
    obtain ⟨lb, hlb⟩ : ∃ lb, (c :: cs).getLast? = some lb :=
      ⟨(c :: cs).getLast (by simp), List.getLast?_eq_getLast _ _⟩
    have hwin2 : x.timestamp ≤ lb.1 := by
      rw [hlb] at hwin
      simpa using hwin
    obtain ⟨hphase, hreach⟩ := runBars_two_signal initial_capital e x he hf hx (c :: cs)
      ⟨false, 0, 0, 0, initial_capital, [], []⟩ [e, x] hstart
    obtain ⟨hpend, hflat, t, htr, hpnl, hcap, heq⟩ :=
      hreach lb hlb (le_trans hex hwin2) hwin2
    rw [if_neg (by rw [hflat]; simp)]
    refine ⟨rfl, ?_, ?_, ?_⟩
    · dsimp only [Option.getD]
      rw [htr]
      rfl
    · dsimp only [Option.getD]
      rw [htr]
      dsimp only [List.headI]
      exact hpnl
    · dsimp only [Option.getD]
      rw [htr, heq]
      dsimp only [List.headI]
      rw [hcap]

/-- Witness for C3: two bars at prices 4 then 5, entry of half the
capital at bar 0, exit at bar 1. -/
theorem C3_backtest_single_trade_witness :
    (run 100 [⟨0, SignalType.ENTRY_LONG, 1/2⟩, ⟨1, SignalType.EXIT_LONG, 0⟩]
      [(0, 4), (1, 5)]).isSome = true ∧
    ((run 100 [⟨0, SignalType.ENTRY_LONG, 1/2⟩, ⟨1, SignalType.EXIT_LONG, 0⟩]
      [(0, 4), (1, 5)]).getD default).trades.length = 1 ∧
    ((run 100 [⟨0, SignalType.ENTRY_LONG, 1/2⟩, ⟨1, SignalType.EXIT_LONG, 0⟩]
      [(0, 4), (1, 5)]).getD default).trades.headI.pnl =
      100 * (⟨0, SignalType.ENTRY_LONG, 1/2⟩ : Signal).size_fraction /
        ((run 100 [⟨0, SignalType.ENTRY_LONG, 1/2⟩, ⟨1, SignalType.EXIT_LONG, 0⟩]
          [(0, 4), (1, 5)]).getD default).trades.headI.entry_price *
        (((run 100 [⟨0, SignalType.ENTRY_LONG, 1/2⟩, ⟨1, SignalType.EXIT_LONG, 0⟩]
          [(0, 4), (1, 5)]).getD default).trades.headI.exit_price -
          ((run 100 [⟨0, SignalType.ENTRY_LONG, 1/2⟩, ⟨1, SignalType.EXIT_LONG, 0⟩]
            [(0, 4), (1, 5)]).getD default).trades.headI.entry_price) ∧
    ((run 100 [⟨0, SignalType.ENTRY_LONG, 1/2⟩, ⟨1, SignalType.EXIT_LONG, 0⟩]
      [(0, 4), (1, 5)]).getD default).equity_curve.getLast?.getD 0 =
      100 + ((run 100 [⟨0, SignalType.ENTRY_LONG, 1/2⟩, ⟨1, SignalType.EXIT_LONG, 0⟩]
        [(0, 4), (1, 5)]).getD default).trades.headI.pnl :=
  C3_backtest_single_trade 100 ⟨0, SignalType.ENTRY_LONG, 1/2⟩ ⟨1, SignalType.EXIT_LONG, 0⟩
    [(0, 4), (1, 5)] (by simp) (by decide) (by norm_num [List.forall_mem_cons]) rfl
    (by norm_num) rfl (by decide) (by decide)

end Swarm
